import Mathlib

/-!
# Verification of the supagraph live-ingestion core

A shallow embedding of the two source files of the repository:

* `src/sync/tooling/persistence/mongo.ts` — the `Mongo` store adapter
  (`get` / `put` / `del` / `batch` over a document store with a KV hot cache);
* the listener/dispatcher module (`createListener`, `attemptNextBlock`,
  `recordListenerBlock`, `restackListenerBlock`, `startProcessingBlock`,
  `processListenerBlockSafely`, `getReceipt`, `awaitListenerBlockAndReceipts`).

JS objects are modelled as association lists (`alGet` / `alSet`) preserving
JS property-insertion order: assigning an existing key updates it in place,
assigning a new key appends it at the end.  JS `undefined` on a document
field is modelled as `none` (the mongodb driver serialises such fields away
from filters/replacements identically to absent fields, which is also how
the repository's own jest expectations compare them).  Promises are modelled
by their settled results; where the source starts asynchronous work whose
completion order matters it is noted on the definition.
-/

namespace Supagraph

/-- A store document / store value.  `mongo_id` models the reserved `_id`
field; `data` stands for the user payload fields; the three `_block_*`
fields participate in the immutable-collection uniqueness key. -/
structure Doc where
  id : Option String := none
  block_ts : Option Int := none
  block_num : Option Int := none
  chain_id : Option Int := none
  mongo_id : Option String := none
  data : Option String := none
deriving DecidableEq, Repr

/-- Association-list lookup: first entry with the given key (JS property read). -/
def alGet {α : Type} (l : List (String × α)) (k : String) : Option α :=
  match l with
  | [] => none
  | (k0, v0) :: rest => if k0 = k then some v0 else alGet rest k

/-- Association-list assignment with JS object semantics: an existing key is
updated in place, a new key is appended at the end. -/
def alSet {α : Type} (l : List (String × α)) (k : String) (v : α) : List (String × α) :=
  match l with
  | [] => [(k, v)]
  | (k0, v0) :: rest => if k0 = k then (k, v) :: rest else (k0, v0) :: alSet rest k v

/-- `obj[k] = obj[k] || fallback` — the defaulting idiom used throughout the adapter. -/
def alEnsure {α : Type} (l : List (String × α)) (k : String) (fallback : α) : List (String × α) :=
  alSet l k ((alGet l k).getD fallback)

/-- JS `delete obj[k]` (used on the hot cache). -/
def alDel {α : Type} (l : List (String × α)) (k : String) : List (String × α) :=
  l.filter (fun p => p.1 ≠ k)

/-- Split a character list on `'.'` (the splitting of JS `String.split(".")`):
the empty input yields one empty segment, every dot opens a new segment. -/
def splitDots (cs : List Char) : List (List Char) :=
  match cs with
  | [] => [[]]
  | c :: rest =>
    let r := splitDots rest
    if c = '.' then [] :: r
    else
      match r with
      | [] => [[c]]
      | h :: t => (c :: h) :: t

/-- `const [ref, id] = key.split(".")` — the ref is always a string, the id
may be absent when the key has no dot. -/
def keySplit (key : String) : String × Option String :=
  let parts := (splitDots key.toList).map (fun cs => String.mk cs)
  (parts.headD "", parts[1]?)

/-- JS truthiness of the id component of a split key (`undefined` and `""` are falsy). -/
def idOk (idO : Option String) : Bool :=
  match idO with
  | none => false
  | some s => s ≠ ""

/-- The engine flags the adapter consults. -/
structure Eng where
  readOnly : Bool := false
  newDb : Bool := false
  warmDb : Bool := false
deriving DecidableEq, Repr

/-- A mongodb query filter as issued by the adapter: an equality condition on
`id` and, for immutable collections, equality conditions on the three
`_block_*` fields.  A `none` component is a field serialised as null, which
matches documents where the field is missing. -/
structure MFilter where
  fid : Option String
  blockF : Option (Option Int × Option Int × Option Int)
deriving DecidableEq, Repr

/-- Whether a document matches a filter. -/
def matchFilter (f : MFilter) (d : Doc) : Bool :=
  d.id == f.fid &&
    match f.blockF with
    | none => true
    | some (ts, num, cid) => d.block_ts == ts && d.block_num == num && d.chain_id == cid

/-- `collection.replaceOne(filter, replacement, { upsert: true })`: replace the
first matching document in place, or append the replacement when none matches. -/
def applyReplaceOne (docs : List Doc) (f : MFilter) (rep : Doc) : List Doc :=
  match docs with
  | [] => [rep]
  | d :: rest => if matchFilter f d then rep :: rest else d :: applyReplaceOne rest f rep

/-- A single operation inside a `bulkWrite` batch. -/
inductive BulkOp
  | repl (f : MFilter) (rep : Doc)
  | delMany (kid : Option String)
deriving DecidableEq, Repr

/-- Apply one bulk operation to a collection: `replaceOne` as above,
`deleteMany({ id })` removes every matching document. -/
def applyBulkOp (docs : List Doc) : BulkOp → List Doc
  | .repl f rep => applyReplaceOne docs f rep
  | .delMany kid => docs.filter (fun d => !(d.id == kid))

/-- A durable write issued against the underlying mongo collections.
`deleteOne` records the adapter's single-document delete (see `mongoDel`). -/
inductive DurableCall
  | replaceOne (coll : String) (f : MFilter) (rep : Doc)
  | deleteOne (coll : String)
  | bulkWrite (coll : String) (ops : List BulkOp)
deriving DecidableEq, Repr

/-- The adapter state: the KV hot cache (`this.kv`, collection → id → value),
the durable document store (collection → documents in natural order), and the
log of durable writes issued so far. -/
structure MState where
  kv : List (String × List (String × Doc)) := []
  store : List (String × List Doc) := []
  writes : List DurableCall := []
deriving DecidableEq, Repr

/-- Documents of a collection (mongo creates collections implicitly). -/
def collOf (st : MState) (ref : String) : List Doc :=
  (alGet st.store ref).getD []

/-- The replace filter built identically by `Mongo.put` and `Mongo.batch`:
`{ id }` for mutable collections and `__meta__`, and additionally the three
`_block_*` fields of the value otherwise. -/
def putFilter (mutable : Bool) (ref : String) (kid : Option String) (val : Doc) : MFilter :=
  ⟨kid, if mutable || ref == "__meta__" then none
        else some (val.block_ts, val.block_num, val.chain_id)⟩

/-- `Mongo.put(key, val)`: cache unconditionally, then (unless `readOnly`)
`replaceOne` with the `putFilter` of the key's id and the value. -/
def mongoPut (eng : Eng) (mutable : Bool) (st : MState) (key : String) (val : Doc) :
    MState × Bool :=
  let rid := keySplit key
  let ref := rid.1
  -- this.kv[ref] = this.kv[ref] || {}
  let st := { st with kv := alEnsure st.kv ref [] }
  if ref ≠ "" ∧ idOk rid.2 then
    let i := rid.2.getD ""
    let st := { st with kv := alSet st.kv ref (alSet ((alGet st.kv ref).getD []) i val) }
    if !eng.readOnly then
      let f := putFilter mutable ref (some i) val
      ({ st with
          store := alSet st.store ref (applyReplaceOne (collOf st ref) f val),
          writes := st.writes ++ [.replaceOne ref f val] }, true)
    else (st, true)
  else (st, true)

/-- `Mongo.del(key)`: drop the hot-cache entry, then (unless `readOnly`) issue
the delete.  The source calls `collection.findOne({id}, {sort:{_block_ts:-1}})`
WITHOUT awaiting it, so `document` is a pending promise — always truthy — and
`collection.deleteOne(document)` receives the promise object as its filter.
A promise serialises with no own enumerable fields, i.e. as the empty filter,
so the call removes the first document of the collection in natural order
(and is issued even when no document holds the id). -/
def mongoDel (eng : Eng) (st : MState) (key : String) : MState × Bool :=
  let rid := keySplit key
  let ref := rid.1
  let st := { st with kv := alEnsure st.kv ref [] }
  if ref ≠ "" ∧ idOk rid.2 then
    let i := rid.2.getD ""
    let st := { st with kv := alSet st.kv ref (alDel ((alGet st.kv ref).getD []) i) }
    if !eng.readOnly then
      ({ st with
          store := alSet st.store ref ((collOf st ref).drop 1),
          writes := st.writes ++ [.deleteOne ref] }, true)
    else (st, true)
  else (st, true)

/-- The sort key order used by `{ $sort: { _block_ts: -1 } }` and by
`findOne(..., { sort: { _block_ts: -1 } })`: BSON sorts null/missing below
numbers, so `none ≤ some z` for every `z`. -/
def tsLE (a b : Option Int) : Bool :=
  match a, b with
  | none, _ => true
  | some _, none => false
  | some x, some y => decide (x ≤ y)

/-- Descending `_block_ts` order on documents. -/
def tsDescLE (a b : Doc) : Bool :=
  tsLE b.block_ts a.block_ts

/-- Ordered insertion for the descending `_block_ts` sort. -/
def insertTsDesc (d : Doc) (l : List Doc) : List Doc :=
  match l with
  | [] => [d]
  | x :: xs => if tsDescLE d x then d :: x :: xs else x :: insertTsDesc d xs

/-- A collection sorted by `_block_ts` descending (insertion sort; any sort
models the driver's `$sort`, whose tie order is unspecified). -/
def sortTsDesc (docs : List Doc) : List Doc :=
  match docs with
  | [] => []
  | d :: rest => insertTsDesc d (sortTsDesc rest)

/-- `findOne({ id }, { sort: { _block_ts: -1 } })`: the first document holding
the id under the descending sort, i.e. the newest version of the id. -/
def findOneByIdTsDesc (docs : List Doc) (i : String) : Option Doc :=
  (sortTsDesc docs).find? (fun d => d.id == some i)

/-- The `$group: { _id: "$id", latestDocument: { $first: "$$ROOT" } }` stage
applied to an ordered input: keep the first document of each id, in order of
first appearance. -/
def dedupById (docs : List Doc) : List Doc :=
  match docs with
  | [] => []
  | d :: rest => d :: dedupById (rest.filter (fun x => !(x.id == d.id)))
termination_by docs.length
decreasing_by
  simp only [List.length_cons]
  exact Nat.lt_succ_of_le (List.length_filter_le _ _)

/-- The grouped latest-per-id view of an immutable collection. -/
def latestPerId (docs : List Doc) : List Doc :=
  dedupById (sortTsDesc docs)

/-- The driver-memory-bounding pagination loop of `Mongo.get`: re-run the
grouping aggregate with `$skip`/`$limit` in fixed batches of 5000 until the
pre-counted total is reached. -/
def pageLoop (grouped : List Doc) (total skip : Nat) : List Doc :=
  if skip < total then
    ((grouped.drop skip).take 5000) ++ pageLoop grouped total (skip + 5000)
  else []
termination_by total - skip
decreasing_by omega

/-- The full materialised view computed by `Mongo.get` for an immutable
collection queried with a bare ref: count the groups, then page the grouped
aggregate in batches of 5000. -/
def latestView (docs : List Doc) : List Doc :=
  pageLoop (latestPerId docs) (latestPerId docs).length 0

/-- The result of a successful `Mongo.get`: a single document for a `ref.id`
key, a list for a bare-ref collection scan. -/
inductive GetVal
  | one (d : Doc)
  | many (l : List Doc)
deriving DecidableEq, Repr

/-- `Mongo.get(key)`, following the source's resolution order: the KV hot
cache for `ref.id` keys; then (when not `newDb`, and not `warmDb` except for
`__meta__`) the newest document under a descending `_block_ts` sort; for
bare-ref keys the latest-per-id materialised view when the collection is
immutable and not `__meta__`, otherwise the full collection; then the KV
cache for bare refs; otherwise `NotFound`. -/
def mongoGet (eng : Eng) (mutable : Bool) (st : MState) (key : String) :
    Except String GetVal :=
  let rid := keySplit key
  let ref := rid.1
  let i := rid.2.getD ""
  let kvHit :=
    if ref ≠ "" ∧ idOk rid.2 then alGet ((alGet st.kv ref).getD []) i else none
  match kvHit with
  | some v => .ok (.one v)
  | none =>
    let single :=
      if ref ≠ "" ∧ idOk rid.2 ∧ !eng.newDb ∧ (!eng.warmDb || ref == "__meta__") then
        findOneByIdTsDesc (collOf st ref) i
      else none
    match single with
    | some r => .ok (.one r)
    | none =>
      if ref ≠ "" ∧ ¬idOk rid.2 ∧ !eng.newDb ∧ (!eng.warmDb || ref == "__meta__") then
        if !mutable && ref != "__meta__" then
          let result := latestView (collOf st ref)
          if result ≠ [] then .ok (.many result) else .error "Not Found"
        else
          let result := collOf st ref
          if result ≠ [] then .ok (.many result) else .error "Not Found"
      else if ref ≠ "" ∧ ¬idOk rid.2 then
        match alGet st.kv ref with
        | some m => .ok (.many (m.map Prod.snd))
        | none => .error "Not Found"
      else .error "Not Found"

/-- One operation handed to `Mongo.batch`.  The `type` field is the source's
string discriminant (`"put"` / `"del"`); a `put` whose value is absent or
falsy is modelled with `value := none`. -/
structure BatchOp where
  type : String
  key : String
  value : Option Doc := none
deriving DecidableEq, Repr

/-- Whether `Mongo.batch` keeps an operation when grouping:
`val.type === "del" || val?.value`. -/
def survives (v : BatchOp) : Bool :=
  v.type == "del" || v.value.isSome

/-- The first reduce of `Mongo.batch`: group the operations by collection.
Every operation creates its collection's (possibly empty) bucket; only
surviving operations are pushed into the bucket and force their collection's
hot-cache object into existence. -/
def batchCollect (vals : List BatchOp) (acc : List (String × List BatchOp))
    (st : MState) : List (String × List BatchOp) × MState :=
  match vals with
  | [] => (acc, st)
  | v :: rest =>
    let ref := (keySplit v.key).1
    let acc1 := alEnsure acc ref []
    if survives v then
      batchCollect rest (alSet acc1 ref (((alGet acc1 ref).getD []) ++ [v]))
        { st with kv := alEnsure st.kv ref [] }
    else
      batchCollect rest acc1 st

/-- The per-collection reduce of `Mongo.batch`: turn the collected operations
into bulk-write operations while updating the hot cache synchronously.  A put
replacement strips the reserved `_id` and carries the `_block_*` fields of the
value; its filter follows the same mutable/immutable rule as `Mongo.put`.
A del becomes `deleteMany({ id })`.  A dot-less key leaves the id component
undefined; as a JS property key it stringifies to `"undefined"`. -/
def batchAssemble (mutable : Bool) (coll : String) (cvals : List BatchOp)
    (ops : List BulkOp) (kvc : List (String × Doc)) :
    List BulkOp × List (String × Doc) :=
  match cvals with
  | [] => (ops, kvc)
  | v :: rest =>
    let kid := (keySplit v.key).2
    let kidS := kid.getD "undefined"
    if v.type == "put" then
      let base := v.value.getD {}
      let replacement := { base with mongo_id := none }
      let f := putFilter mutable coll kid base
      batchAssemble mutable coll rest (ops ++ [.repl f replacement])
        (alSet kvc kidS replacement)
    else if v.type == "del" then
      batchAssemble mutable coll rest (ops ++ [.delMany kid]) (alDel kvc kidS)
    else
      batchAssemble mutable coll rest ops kvc

/-- One iteration of the `for (const collection of Object.keys(byCollection))`
loop: assemble the bulk operations (mutating the hot cache), then issue one
`bulkWrite` unless read-only or the assembled batch is empty.  A collection
whose bucket is empty is untouched: the reduce never runs a step and
`batch.length` is zero. -/
def batchApplyColl (eng : Eng) (mutable : Bool) (st : MState) (coll : String)
    (cvals : List BatchOp) : MState :=
  match cvals with
  | [] => st
  | v :: rest =>
    let asm := batchAssemble mutable coll (v :: rest) [] ((alGet st.kv coll).getD [])
    let st1 := { st with kv := alSet st.kv coll asm.2 }
    if !eng.readOnly && !asm.1.isEmpty then
      { st1 with
          store := alSet st1.store coll (asm.1.foldl applyBulkOp (collOf st1 coll)),
          writes := st1.writes ++ [.bulkWrite coll asm.1] }
    else st1

/-- The collection loop of `Mongo.batch`. -/
def batchProcess (eng : Eng) (mutable : Bool)
    (byColl : List (String × List BatchOp)) (st : MState) : MState :=
  match byColl with
  | [] => st
  | (coll, cvals) :: rest => batchProcess eng mutable rest (batchApplyColl eng mutable st coll cvals)

/-- `Mongo.batch(vals)`: group by collection, then per collection assemble and
issue an unordered bulk write; always resolves `true`. -/
def mongoBatch (eng : Eng) (mutable : Bool) (st : MState) (vals : List BatchOp) :
    MState × Bool :=
  let collected := batchCollect vals [] st
  (batchProcess eng mutable collected.1 collected.2, true)

/-! ## The listener / dispatcher module -/

/-- A `blockQueue` entry.  The staged `asyncParts` future is identified by the
generation counter `partsGen`: each call to `saveListenerBlockAndReceipts`
issues a fresh generation, so two entries share `partsGen` only if they share
the same staging future. -/
structure QEntry where
  chainId : Nat
  number : Nat
  partsGen : Nat
deriving DecidableEq, Repr

/-- `recordListenerBlock`: start staging (issuing a fresh parts generation)
and append the entry to the queue. -/
def recordListenerBlock (number chainId : Nat) (q : List QEntry) (gen : Nat) :
    List QEntry × Nat :=
  (q ++ [⟨chainId, number, gen⟩], gen + 1)

/-- The gap-closing `while` loop of `attemptNextBlock`: starting from the
latest processed number, record every successive block until the loop counter
reaches the head's number (so the head's own number is recorded again).  The
source loops `while (latestBlockNumber !== blockQueue[0].number)` after
incrementing; it is only entered when `target - cur > 1`, hence `cur < target`. -/
def gapFillRecord (cur target chainId : Nat) (q : List QEntry) (gen : Nat) :
    List QEntry × Nat :=
  if cur < target then
    let r := recordListenerBlock (cur + 1) chainId q gen
    gapFillRecord (cur + 1) target chainId r.1 r.2
  else (q, gen)
termination_by target - cur
decreasing_by omega

/-- `attemptNextBlock` on a non-empty queue: when the head is more than one
block ahead of `engine.latestBlocks[chainId].number`, fire the gap-filling
`recordListenerBlock` calls; then `splice(0, 1)` hands the original head to
processing.  The un-awaited `recordListenerBlock` calls push their entries
(in call order) only after the synchronous splice, so the resulting queue is
the old tail followed by the gap-fill entries — modelled by appending to the
full queue and dropping the spliced head. -/
def attemptNextBlock (latest : Nat) (q : List QEntry) (gen : Nat) :
    Option (QEntry × List QEntry × Nat) :=
  match q with
  | [] => none
  | e :: rest =>
    let filled :=
      if e.number - latest > 1 then gapFillRecord latest e.number e.chainId (e :: rest) gen
      else (e :: rest, gen)
    some (e, filled.1.drop 1, filled.2)

/-- The observable outcome of running `processListenerBlock` and the cleanup
logic on a block: the handler completed (with the timeout's `cancelled` flag
either set or clear on the staged parts), or it threw. -/
inductive ProcOutcome
  | completed (cancelled : Bool)
  | threw
deriving DecidableEq, Repr

/-- `restackListenerBlock`: `splice(0, 0, ...)` the same block back at the
head of the queue with freshly created staging futures. -/
def restackListenerBlock (number chainId : Nat) (q : List QEntry) (gen : Nat) :
    List QEntry × Nat :=
  (⟨chainId, number, gen⟩ :: q, gen + 1)

/-- `startProcessingBlock`: when the processing arm observes
`parts.cancelled === true`, or when processing threw, restack the block;
otherwise leave the queue alone. -/
def startProcessingBlock (number chainId : Nat) (outcome : ProcOutcome)
    (q : List QEntry) (gen : Nat) : List QEntry × Nat :=
  match outcome with
  | .completed c => if c then restackListenerBlock number chainId q gen else (q, gen)
  | .threw => restackListenerBlock number chainId q gen

/-- The skip guard of `processListenerBlockSafely`:
`engine.startBlocks[chainId] && number >= engine.startBlocks[chainId] &&
number >= engine.latestBlocks[chainId].number`, where a missing or zero start
block is falsy. -/
def listenerBlockGuard (startBlock : Option Nat) (latestNumber number : Nat) : Bool :=
  match startBlock with
  | none => false
  | some s => if s = 0 then false else decide (s ≤ number) && decide (latestNumber ≤ number)

/-- `processListenerBlockSafely`: run the guarded race (whose queue effect is
`startProcessingBlock`) only when the guard passes; otherwise return leaving
the queue and staging generations untouched. -/
def processListenerBlockSafely (startBlock : Option Nat) (latestNumber : Nat)
    (number chainId : Nat) (outcome : ProcOutcome) (q : List QEntry) (gen : Nat) :
    List QEntry × Nat :=
  if listenerBlockGuard startBlock latestNumber number then
    startProcessingBlock number chainId outcome q gen
  else (q, gen)

/-! ## Staging artefacts -/

/-- One `saveJSON(folder, name, ...)` call. -/
structure StagingWrite where
  folder : String
  name : String
deriving DecidableEq, Repr

/-- The `<chainId>-<number>` artefact key. -/
def artifactName (chainId n : Nat) : String :=
  toString chainId ++ "-" ++ toString n

/-- The `<chainId>-<txHash>` artefact key. -/
def txArtifactName (chainId : Nat) (h : String) : String :=
  toString chainId ++ "-" ++ h

/-- The disk writes of `getReceipt` on its success path: the per-transaction
artefact is written only when `flags.cleanup` is unset. -/
def getReceiptWrites (cleanup : Bool) (chainId : Nat) (txHash : String) :
    List StagingWrite :=
  if cleanup then [] else [⟨"transactions", txArtifactName chainId txHash⟩]

/-- The disk writes of `awaitListenerBlockAndReceipts`: every transaction's
receipt artefact (via `getReceipt`), then the per-block artefact unless
`flags.cleanup`, then always the combined `blockAndReceipts` artefact. -/
def awaitListenerWrites (cleanup : Bool) (chainId number : Nat) (txs : List String) :
    List StagingWrite :=
  (txs.map (fun h => getReceiptWrites cleanup chainId h)).flatten
    ++ (if cleanup then [] else [⟨"blocks", artifactName chainId number⟩])
    ++ [⟨"blockAndReceipts", artifactName chainId number⟩]

/-! ## Association-list lemmas -/

theorem alGet_alSet_self {α : Type} (l : List (String × α)) (k : String) (v : α) :
    alGet (alSet l k v) k = some v := by
  induction l with
  | nil => simp [alGet, alSet]
  | cons p rest ih =>
    by_cases h : p.1 = k
    · simp [alGet, alSet, h]
    · simpa [alGet, alSet, h] using ih

theorem alGet_alSet_ne {α : Type} (l : List (String × α)) (k k2 : String) (v : α)
    (h : k ≠ k2) : alGet (alSet l k v) k2 = alGet l k2 := by
  induction l with
  | nil => simp [alGet, alSet, h]
  | cons p rest ih =>
    obtain ⟨pk, pv⟩ := p
    by_cases hp : pk = k
    · simp [alGet, alSet, hp, h, Ne.symm h]
    · by_cases hp2 : pk = k2 <;> simp [alGet, alSet, hp, hp2, ih, Ne.symm h]

theorem alSet_alSet_same {α : Type} (l : List (String × α)) (k : String) (v w : α) :
    alSet (alSet l k v) k w = alSet l k w := by
  induction l with
  | nil => simp [alSet]
  | cons p rest ih =>
    by_cases h : p.1 = k
    · simp [alSet, h]
    · simp [alSet, h, ih]

theorem alSet_self {α : Type} (l : List (String × α)) (k : String) (v : α)
    (h : alGet l k = some v) : alSet l k v = l := by
  induction l with
  | nil => simp [alGet] at h
  | cons p rest ih =>
    obtain ⟨pk, pv⟩ := p
    by_cases hp : pk = k
    · simp [alGet, hp] at h
      simp [alSet, hp, h]
    · simp [alGet, hp] at h
      simp [alSet, hp, ih h]

theorem alSet_of_none {α : Type} (l : List (String × α)) (k : String) (v : α)
    (h : alGet l k = none) : alSet l k v = l ++ [(k, v)] := by
  induction l with
  | nil => simp [alSet]
  | cons p rest ih =>
    by_cases hp : p.1 = k
    · simp [alGet, hp] at h
    · simp [alGet, hp] at h
      simp [alSet, hp, ih h]

theorem alEnsure_of_some {α : Type} (l : List (String × α)) (k : String) (d v : α)
    (h : alGet l k = some v) : alEnsure l k d = l := by
  rw [alEnsure, h]
  exact alSet_self l k v h

theorem alEnsure_of_none {α : Type} (l : List (String × α)) (k : String) (d : α)
    (h : alGet l k = none) : alEnsure l k d = l ++ [(k, d)] := by
  rw [alEnsure, h]
  exact alSet_of_none l k d h

theorem alGet_alEnsure_ne {α : Type} (l : List (String × α)) (k k2 : String) (d : α)
    (h : k ≠ k2) : alGet (alEnsure l k d) k2 = alGet l k2 :=
  alGet_alSet_ne _ _ _ _ h

theorem alSet_comm {α : Type} (l : List (String × α)) (k1 k2 : String) (v1 v2 : α)
    (hne : k1 ≠ k2) (h1 : (alGet l k1).isSome) :
    alSet (alSet l k1 v1) k2 v2 = alSet (alSet l k2 v2) k1 v1 := by
  induction l with
  | nil => simp [alGet] at h1
  | cons p rest ih =>
    obtain ⟨pk, pv⟩ := p
    by_cases hp1 : pk = k1
    · simp [alSet, hp1, hne, Ne.symm hne]
    · by_cases hp2 : pk = k2
      · simp [alSet, hp1, hp2, hne, Ne.symm hne]
      · simp [alGet, hp1] at h1
        simp [alSet, hp1, hp2, ih h1]

theorem alGet_alEnsure_self {α : Type} (l : List (String × α)) (k : String) (d : α) :
    alGet (alEnsure l k d) k = some ((alGet l k).getD d) := by
  rw [alEnsure]
  exact alGet_alSet_self _ _ _

theorem alEnsure_idem {α : Type} (l : List (String × α)) (k : String) (d : α) :
    alEnsure (alEnsure l k d) k d = alEnsure l k d := by
  rw [alEnsure_of_some _ _ _ _ (alGet_alEnsure_self l k d)]

theorem alSet_append_left {α : Type} (l l2 : List (String × α)) (k : String) (v : α)
    (h : (alGet l k).isSome) : alSet (l ++ l2) k v = alSet l k v ++ l2 := by
  induction l with
  | nil => simp [alGet] at h
  | cons p rest ih =>
    obtain ⟨pk, pv⟩ := p
    by_cases hp : pk = k
    · simp [alSet, hp]
    · simp only [alGet, hp, if_neg hp] at h
      simp [alSet, hp, ih h]

theorem alSet_append_of_none {α : Type} (l : List (String × α)) (k : String) (d v : α)
    (h : alGet l k = none) : alSet (l ++ [(k, d)]) k v = l ++ [(k, v)] := by
  induction l with
  | nil => simp [alSet]
  | cons p rest ih =>
    obtain ⟨pk, pv⟩ := p
    by_cases hp : pk = k
    · simp [alGet, hp] at h
    · simp only [alGet, hp, if_neg hp] at h
      simp [alSet, hp, ih h]

/-- Ensuring a fresh collection before setting an unrelated existing key
commutes away: the sequence `ensure B; set A; set B` equals `set A; set B`. -/
theorem alSet_alSet_alEnsure_comm {α : Type} (l : List (String × α))
    (kA kB : String) (xA xB dB : α) (hne : kB ≠ kA) (hA : (alGet l kA).isSome) :
    alSet (alSet (alEnsure l kB dB) kA xA) kB xB = alSet (alSet l kA xA) kB xB := by
  cases hB : alGet l kB with
  | some v => rw [alEnsure_of_some _ _ _ _ hB]
  | none =>
    have hB2 : alGet (alSet l kA xA) kB = none := by
      rw [alGet_alSet_ne _ _ _ _ (Ne.symm hne)]
      exact hB
    rw [alEnsure_of_none _ _ _ hB, alSet_append_left _ _ _ _ hA,
      alSet_append_of_none _ _ _ _ hB2, alSet_of_none _ _ _ hB2]

theorem doc_set_mongo_id_none {d : Doc} (h : d.mongo_id = none) :
    { d with mongo_id := none } = d := by
  cases d
  simp only [Doc.mk.injEq, true_and]
  simp only at h
  exact ⟨h.symm, trivial⟩

/-! ## Ordering lemmas for the `_block_ts` sort -/

theorem tsLE_refl (a : Option Int) : tsLE a a = true := by
  cases a <;> simp [tsLE]

theorem tsLE_trans {a b c : Option Int} (h1 : tsLE a b = true) (h2 : tsLE b c = true) :
    tsLE a c = true := by
  cases a <;> cases b <;> cases c <;> simp_all [tsLE]
  omega

theorem tsLE_total (a b : Option Int) : tsLE a b || tsLE b a := by
  cases a <;> cases b <;> simp [tsLE]
  omega

theorem tsDescLE_trans (a b c : Doc) (h1 : tsDescLE a b = true) (h2 : tsDescLE b c = true) :
    tsDescLE a c = true :=
  tsLE_trans h2 h1

theorem tsDescLE_total (a b : Doc) : tsDescLE a b || tsDescLE b a := by
  rw [Bool.or_comm]
  exact tsLE_total a.block_ts b.block_ts

theorem insertTsDesc_perm (d : Doc) (l : List Doc) :
    List.Perm (insertTsDesc d l) (d :: l) := by
  induction l with
  | nil => simp [insertTsDesc]
  | cons x xs ih =>
    rw [insertTsDesc]
    split
    · exact List.Perm.refl _
    · exact (ih.cons x).trans (List.Perm.swap d x xs)

theorem sortTsDesc_perm (docs : List Doc) : List.Perm (sortTsDesc docs) docs := by
  induction docs with
  | nil => simp [sortTsDesc]
  | cons d rest ih =>
    rw [sortTsDesc]
    exact (insertTsDesc_perm d (sortTsDesc rest)).trans (ih.cons d)

theorem insertTsDesc_pairwise (d : Doc) (l : List Doc)
    (h : l.Pairwise (fun a b => tsDescLE a b = true)) :
    (insertTsDesc d l).Pairwise (fun a b => tsDescLE a b = true) := by
  induction l with
  | nil => simp [insertTsDesc]
  | cons x xs ih =>
    have hpair := List.pairwise_cons.mp h
    rw [insertTsDesc]
    split
    · next hdx =>
      refine List.pairwise_cons.mpr ⟨?_, h⟩
      intro y hy
      rcases List.mem_cons.mp hy with rfl | hyin
      · exact hdx
      · exact tsDescLE_trans _ _ _ hdx (hpair.1 y hyin)
    · next hdx =>
      have hxd : tsDescLE x d = true := by
        rcases Bool.or_eq_true_iff.mp (tsDescLE_total d x) with h1 | h1
        · exact absurd h1 hdx
        · exact h1
      refine List.pairwise_cons.mpr ⟨?_, ih hpair.2⟩
      intro y hy
      rcases (insertTsDesc_perm d xs).mem_iff.mp hy with h1
      rcases List.mem_cons.mp h1 with rfl | hyin
      · exact hxd
      · exact hpair.1 y hyin

theorem sortTsDesc_sorted (docs : List Doc) :
    (sortTsDesc docs).Pairwise (fun a b => tsDescLE a b = true) := by
  induction docs with
  | nil => simp [sortTsDesc]
  | cons d rest ih =>
    rw [sortTsDesc]
    exact insertTsDesc_pairwise d (sortTsDesc rest) ih

theorem mem_sortTsDesc {d : Doc} {docs : List Doc} : d ∈ sortTsDesc docs ↔ d ∈ docs :=
  (sortTsDesc_perm docs).mem_iff

/-! ## Lemmas on the latest-per-id grouping -/

theorem dedupById_nil : dedupById [] = [] := by
  rw [dedupById]

theorem dedupById_cons (d : Doc) (rest : List Doc) :
    dedupById (d :: rest) = d :: dedupById (rest.filter (fun x => !(x.id == d.id))) := by
  rw [dedupById]

theorem mem_of_mem_dedupById {r : Doc} {l : List Doc} (h : r ∈ dedupById l) : r ∈ l := by
  induction l using dedupById.induct with
  | case1 => simp [dedupById_nil] at h
  | case2 d rest ih =>
    rw [dedupById_cons] at h
    rcases List.mem_cons.mp h with h | h
    · simp [h]
    · exact List.mem_cons_of_mem _ (List.mem_of_mem_filter (ih h))

theorem mem_filtered_of_mem_dedupById {r d : Doc} {rest : List Doc}
    (h : r ∈ dedupById (rest.filter (fun x => !(x.id == d.id)))) : ¬(r.id = d.id) := by
  have hm := mem_of_mem_dedupById h
  have := List.of_mem_filter hm
  simpa using this

theorem map_id_filter (d : Doc) (rest : List Doc) :
    (rest.filter (fun x => !(x.id == d.id))).map Doc.id
      = (rest.map Doc.id).filter (fun i => !(i == d.id)) := by
  induction rest with
  | nil => simp
  | cons x xs ih =>
    by_cases h : x.id = d.id <;> simp [h, ih]

theorem toFinset_filter_ne (l : List (Option String)) (a : Option String) :
    (l.filter (fun i => !(i == a))).toFinset = l.toFinset.erase a := by
  induction l with
  | nil => simp
  | cons x xs ih =>
    by_cases h : x = a
    · simp [h, ih, Finset.erase_insert_eq_erase]
    · simp only [List.filter_cons, h, List.toFinset_cons, ih]
      simp only [show (!(x == a)) = true by simp [h], if_true, List.toFinset_cons, ih]
      exact (Finset.erase_insert_of_ne h).symm

theorem dedupById_length (l : List Doc) :
    (dedupById l).length = (l.map Doc.id).toFinset.card := by
  induction l using dedupById.induct with
  | case1 => simp [dedupById_nil]
  | case2 d rest ih =>
    rw [dedupById_cons]
    simp only [List.length_cons, List.map_cons, List.toFinset_cons]
    rw [ih, map_id_filter, toFinset_filter_ne]
    have hnm : d.id ∉ (rest.map Doc.id).toFinset.erase d.id := Finset.not_mem_erase _ _
    calc ((rest.map Doc.id).toFinset.erase d.id).card + 1
        = (insert d.id ((rest.map Doc.id).toFinset.erase d.id)).card :=
          (Finset.card_insert_of_not_mem hnm).symm
      _ = (insert d.id (rest.map Doc.id).toFinset).card := by
          congr 1
          ext i
          by_cases hi : i = d.id <;> simp [hi]

theorem dedupById_max {l : List Doc} (hs : l.Pairwise (fun a b => tsDescLE a b = true)) :
    ∀ r ∈ dedupById l, ∀ d ∈ l, d.id = r.id → tsLE d.block_ts r.block_ts := by
  induction l using dedupById.induct with
  | case1 => simp [dedupById_nil]
  | case2 x rest ih =>
    rw [dedupById_cons]
    intro r hr d hd hid
    have hpair := List.pairwise_cons.mp hs
    rcases List.mem_cons.mp hr with hrx | hrin
    · subst hrx
      rcases List.mem_cons.mp hd with hdx | hdin
      · subst hdx; exact tsLE_refl _
      · exact hpair.1 d hdin
    · have hsub : (rest.filter (fun x2 => !(x2.id == x.id))).Pairwise
          (fun a b => tsDescLE a b = true) :=
        hpair.2.sublist (List.filter_sublist rest)
      have hrne : ¬(r.id = x.id) := mem_filtered_of_mem_dedupById hrin
      rcases List.mem_cons.mp hd with hdx | hdin
      · subst hdx
        exact absurd hid.symm hrne
      · have hdfil : d ∈ rest.filter (fun x2 => !(x2.id == x.id)) := by
          refine List.mem_filter.mpr ⟨hdin, ?_⟩
          simp [hid, hrne]
        exact ih hsub r hrin d hdfil hid

theorem pageLoop_eq (l : List Doc) (skip : Nat) :
    pageLoop l l.length skip = l.drop skip := by
  rw [pageLoop]
  split
  · rw [pageLoop_eq l (skip + 5000), ← List.drop_drop 5000 skip l]
    exact List.take_append_drop 5000 (l.drop skip)
  · next h =>
    rw [List.drop_eq_nil_of_le (by omega)]
termination_by l.length - skip
decreasing_by omega

theorem latestView_eq (docs : List Doc) : latestView docs = latestPerId docs := by
  rw [latestView, pageLoop_eq, List.drop_zero]

theorem latestPerId_subset {r : Doc} {docs : List Doc} (h : r ∈ latestPerId docs) :
    r ∈ docs :=
  mem_sortTsDesc.mp (mem_of_mem_dedupById h)

theorem latestPerId_length (docs : List Doc) :
    (latestPerId docs).length = (docs.map Doc.id).dedup.length := by
  rw [latestPerId, dedupById_length, ← List.card_toFinset]
  congr 1
  ext a
  simp only [List.mem_toFinset]
  exact ((sortTsDesc_perm docs).map Doc.id).mem_iff

theorem latestPerId_max {docs : List Doc} :
    ∀ r ∈ latestPerId docs, ∀ d ∈ docs, d.id = r.id →
      tsLE d.block_ts r.block_ts = true := by
  intro r hr d hd hid
  exact dedupById_max (sortTsDesc_sorted docs) r hr d (mem_sortTsDesc.mpr hd) hid

theorem latestPerId_ne_nil {docs : List Doc} (h : docs ≠ []) : latestPerId docs ≠ [] := by
  rw [latestPerId]
  have hlen : (sortTsDesc docs).length = docs.length := (sortTsDesc_perm docs).length_eq
  cases hs : sortTsDesc docs with
  | nil =>
    rw [hs] at hlen
    exact absurd (List.length_eq_zero.mp hlen.symm) h
  | cons x xs => simp [dedupById_cons]

theorem find?_pairwise_max {l : List Doc}
    (hp : l.Pairwise (fun a b => tsDescLE a b = true))
    {p : Doc → Bool} {r : Doc} (h : l.find? p = some r) :
    ∀ d ∈ l, p d = true → tsLE d.block_ts r.block_ts = true := by
  induction l with
  | nil => simp [List.find?] at h
  | cons x xs ih =>
    intro d hd hpd
    have hpair := List.pairwise_cons.mp hp
    cases hx : p x with
    | true =>
      rw [List.find?_cons_of_pos _ hx] at h
      obtain rfl : x = r := by injection h
      rcases List.mem_cons.mp hd with rfl | hdin
      · exact tsLE_refl _
      · exact hpair.1 d hdin
    | false =>
      rw [List.find?_cons_of_neg _ (by simp [hx])] at h
      rcases List.mem_cons.mp hd with rfl | hdin
      · rw [hx] at hpd; exact absurd hpd (by simp)
      · exact ih hpair.2 h d hdin hpd

/-- Everything `findOneByIdTsDesc` promises: membership, the id condition and
maximality of `_block_ts` among the documents holding the id. -/
theorem findOneByIdTsDesc_spec {docs : List Doc} {i : String} {r : Doc}
    (h : findOneByIdTsDesc docs i = some r) :
    r ∈ docs ∧ r.id = some i ∧
      ∀ d ∈ docs, d.id = some i → tsLE d.block_ts r.block_ts = true := by
  refine ⟨?_, ?_, ?_⟩
  · exact mem_sortTsDesc.mp (List.mem_of_find?_eq_some h)
  · have := List.find?_some h
    simpa using this
  · intro d hd hdi
    exact find?_pairwise_max (sortTsDesc_sorted docs) h d (mem_sortTsDesc.mpr hd)
      (by simp [hdi])

/-- C4: for an immutable, non-`__meta__` collection read through (not `newDb`,
not `warmDb`) with a bare ref and no id, `Mongo.get` returns the materialised
latest-per-id view — computed by grouping on `id` taking `$first` under a
descending `_block_ts` sort and paged in fixed batches of 5000 — which holds
exactly one record per distinct id of the collection, each a document of the
collection whose `_block_ts` is maximal among the documents sharing its id. -/
theorem C4_get_ref_materialised_view
    (eng : Eng) (st : MState) (key ref : String) (docs : List Doc)
    (hk : keySplit key = (ref, none)) (href : ref ≠ "") (hmeta : ref ≠ "__meta__")
    (hnew : eng.newDb = false) (hwarm : eng.warmDb = false)
    (hcoll : alGet st.store ref = some docs) (hne : docs ≠ []) :
    mongoGet eng false st key = .ok (.many (latestView docs)) ∧
    latestView docs = latestPerId docs ∧
    (latestView docs).length = (docs.map Doc.id).dedup.length ∧
    (∀ r ∈ latestView docs, r ∈ docs ∧
      ∀ d ∈ docs, d.id = r.id → tsLE d.block_ts r.block_ts = true) := by
  have hview : latestView docs = latestPerId docs := latestView_eq docs
  have hcollOf : collOf st ref = docs := by rw [collOf, hcoll]; rfl
  refine ⟨?_, hview, by rw [hview]; exact latestPerId_length docs, ?_⟩
  · rw [mongoGet, hk]
    simp [idOk, href, hmeta, hnew, hwarm, hcollOf, hview, latestPerId_ne_nil hne]
  · intro r hr
    rw [hview] at hr
    exact ⟨latestPerId_subset hr, fun d hd hid => latestPerId_max r hr d hd hid⟩

/-- Witness for C4 at a concrete immutable collection holding two versions of
id `z` and one of id `a`. -/
theorem C4_witness :
    mongoGet {} false
        { store := [("c", [{ id := some "z", block_ts := some 1 },
                           { id := some "z", block_ts := some 2 },
                           { id := some "a", block_ts := some 1 }])] } "c"
      = .ok (.many (latestView [{ id := some "z", block_ts := some 1 },
                                { id := some "z", block_ts := some 2 },
                                { id := some "a", block_ts := some 1 }])) ∧
    (latestView [({ id := some "z", block_ts := some 1 } : Doc),
                 { id := some "z", block_ts := some 2 },
                 { id := some "a", block_ts := some 1 }]).length = 2 := by
  have h := C4_get_ref_materialised_view {}
    { store := [("c", [{ id := some "z", block_ts := some 1 },
                       { id := some "z", block_ts := some 2 },
                       { id := some "a", block_ts := some 1 }])] }
    "c" "c"
    [{ id := some "z", block_ts := some 1 },
     { id := some "z", block_ts := some 2 },
     { id := some "a", block_ts := some 1 }]
    (by decide) (by decide) (by decide) rfl rfl (by decide) (by decide)
  exact ⟨h.1, by rw [h.2.2.1]; decide⟩

/-- C7: resolution of `Mongo.get` for a `ref.id` key: a cached KV value is
returned first; on a cache miss, when the engine is not `newDb` and either not
`warmDb` or the ref is `__meta__`, the collection is queried for the id under
a descending `_block_ts` sort and the newest matching document is returned;
when neither source yields a value the call fails with `NotFound`. -/
theorem C7_get_key_resolution
    (eng : Eng) (mutable : Bool) (st : MState) (key ref i : String)
    (hk : keySplit key = (ref, some i)) (href : ref ≠ "") (hi : i ≠ "") :
    (∀ v, alGet ((alGet st.kv ref).getD []) i = some v →
        mongoGet eng mutable st key = .ok (.one v)) ∧
    (alGet ((alGet st.kv ref).getD []) i = none →
      eng.newDb = false → (eng.warmDb = false ∨ ref = "__meta__") →
      ∀ r, findOneByIdTsDesc (collOf st ref) i = some r →
        mongoGet eng mutable st key = .ok (.one r) ∧ r ∈ collOf st ref ∧
          r.id = some i ∧
          ∀ d ∈ collOf st ref, d.id = some i → tsLE d.block_ts r.block_ts = true) ∧
    (alGet ((alGet st.kv ref).getD []) i = none →
      (eng.newDb = true ∨ (eng.warmDb = true ∧ ref ≠ "__meta__") ∨
        findOneByIdTsDesc (collOf st ref) i = none) →
      mongoGet eng mutable st key = .error "Not Found") := by
  refine ⟨?_, ?_, ?_⟩
  · intro v hv
    rw [mongoGet, hk]
    simp [idOk, href, hi, hv]
  · intro hkv hnew hwm r hr
    have hspec := findOneByIdTsDesc_spec hr
    refine ⟨?_, hspec.1, hspec.2.1, hspec.2.2⟩
    rw [mongoGet, hk]
    rcases hwm with hwm | hmeta
    · simp [idOk, href, hi, hkv, hnew, hwm, hr]
    · subst hmeta
      simp [idOk, href, hi, hkv, hnew, hr]
  · intro hkv hdis
    rw [mongoGet, hk]
    rcases hdis with hnew | ⟨hwarm, hmeta⟩ | hfind
    · simp [idOk, href, hi, hkv, hnew]
    · simp [idOk, href, hi, hkv, hwarm, hmeta]
    · by_cases hmeta : ref = "__meta__"
      · subst hmeta
        by_cases hnew : eng.newDb <;> by_cases hwarm : eng.warmDb <;>
          simp [idOk, href, hi, hkv, hnew, hwarm, hfind]
      · by_cases hnew : eng.newDb <;> by_cases hwarm : eng.warmDb <;>
          simp [idOk, href, hi, hkv, hnew, hwarm, hmeta, hfind]

/-- Witness for C7: a cache miss on `c.z` against a collection holding two
versions of `z` returns the `_block_ts = 2` version; the same read against an
engine in `newDb` mode fails with `NotFound`. -/
theorem C7_witness :
    mongoGet {} false { store := [("c", [{ id := some "z", block_ts := some 1 },
                                         { id := some "z", block_ts := some 2 }])] } "c.z"
      = .ok (.one { id := some "z", block_ts := some 2 }) ∧
    mongoGet { newDb := true } false
        { store := [("c", [{ id := some "z", block_ts := some 1 },
                           { id := some "z", block_ts := some 2 }])] } "c.z"
      = .error "Not Found" := by
  constructor
  · exact ((C7_get_key_resolution {} false
      { store := [("c", [{ id := some "z", block_ts := some 1 },
                         { id := some "z", block_ts := some 2 }])] }
      "c.z" "c" "z" (by decide) (by decide) (by decide)).2.1
      rfl rfl (Or.inl rfl) _ (by decide)).1
  · exact (C7_get_key_resolution { newDb := true } false
      { store := [("c", [{ id := some "z", block_ts := some 1 },
                         { id := some "z", block_ts := some 2 }])] }
      "c.z" "c" "z" (by decide) (by decide) (by decide)).2.2
      rfl (Or.inl rfl)

/-- C5 (code bug): `Mongo.del("c.z")` drops the hot-cache entry, but the
durable delete does not remove the newest document for `z`.  The source never
awaits the `findOne` promise, so `deleteOne` receives the pending promise as
its filter (serialising as the empty filter) and removes the first document of
the collection in natural order — here the `w` document — while both versions
of `z`, including the newest (`_block_ts = 9`), survive. -/
theorem C5_del_not_newest_eval :
    (mongoDel {} { kv := [("c", [("z", { id := some "z", block_ts := some 9 })])],
                   store := [("c", [{ id := some "w", block_ts := some 5 },
                                    { id := some "z", block_ts := some 1 },
                                    { id := some "z", block_ts := some 9 }])] } "c.z").1
      = { kv := [("c", [])],
          store := [("c", [{ id := some "z", block_ts := some 1 },
                           { id := some "z", block_ts := some 9 }])],
          writes := [.deleteOne "c"] } ∧
    findOneByIdTsDesc [{ id := some "w", block_ts := some 5 },
                       { id := some "z", block_ts := some 1 },
                       { id := some "z", block_ts := some 9 }] "z"
      = some { id := some "z", block_ts := some 9 } := by
  decide

/-! ## Read-only frame lemmas -/

theorem mongoPut_kv_eq (eng : Eng) (mutable : Bool) (st : MState)
    (key : String) (val : Doc) :
    (mongoPut eng mutable st key val).1.kv
      = if (keySplit key).1 ≠ "" ∧ idOk (keySplit key).2 then
          alSet (alEnsure st.kv (keySplit key).1 []) (keySplit key).1
            (alSet ((alGet (alEnsure st.kv (keySplit key).1 []) (keySplit key).1).getD [])
              ((keySplit key).2.getD "") val)
        else alEnsure st.kv (keySplit key).1 [] := by
  rw [mongoPut]
  split
  · dsimp only
    split <;> rfl
  · rfl

theorem mongoPut_kv_indep (eng eng2 : Eng) (mutable : Bool) (st : MState)
    (key : String) (val : Doc) :
    (mongoPut eng mutable st key val).1.kv = (mongoPut eng2 mutable st key val).1.kv := by
  rw [mongoPut_kv_eq, mongoPut_kv_eq]

theorem mongoPut_ro (eng : Eng) (hro : eng.readOnly = true) (mutable : Bool)
    (st : MState) (key : String) (val : Doc) :
    (mongoPut eng mutable st key val).1.store = st.store ∧
    (mongoPut eng mutable st key val).1.writes = st.writes := by
  rw [mongoPut]
  by_cases h : (keySplit key).1 ≠ "" ∧ idOk (keySplit key).2 <;>
    simp [h, hro]

theorem mongoDel_kv_eq (eng : Eng) (st : MState) (key : String) :
    (mongoDel eng st key).1.kv
      = if (keySplit key).1 ≠ "" ∧ idOk (keySplit key).2 then
          alSet (alEnsure st.kv (keySplit key).1 []) (keySplit key).1
            (alDel ((alGet (alEnsure st.kv (keySplit key).1 []) (keySplit key).1).getD [])
              ((keySplit key).2.getD ""))
        else alEnsure st.kv (keySplit key).1 [] := by
  rw [mongoDel]
  split
  · dsimp only
    split <;> rfl
  · rfl

theorem mongoDel_kv_indep (eng eng2 : Eng) (st : MState) (key : String) :
    (mongoDel eng st key).1.kv = (mongoDel eng2 st key).1.kv := by
  rw [mongoDel_kv_eq, mongoDel_kv_eq]

theorem mongoDel_ro (eng : Eng) (hro : eng.readOnly = true) (st : MState)
    (key : String) :
    (mongoDel eng st key).1.store = st.store ∧
    (mongoDel eng st key).1.writes = st.writes := by
  rw [mongoDel]
  by_cases h : (keySplit key).1 ≠ "" ∧ idOk (keySplit key).2 <;>
    simp [h, hro]

/-- Characterisation of `Mongo.put` on a well-formed `ref.id` key. -/
theorem mongoPut_eq (eng : Eng) (mutable : Bool) (st : MState) {key ref i : String}
    (hk : keySplit key = (ref, some i)) (href : ref ≠ "") (hi : i ≠ "")
    (val : Doc) :
    (mongoPut eng mutable st key val).1
      = if eng.readOnly then
          { st with
              kv := alSet (alEnsure st.kv ref []) ref
                      (alSet ((alGet st.kv ref).getD []) i val) }
        else
          { kv := alSet (alEnsure st.kv ref []) ref
                    (alSet ((alGet st.kv ref).getD []) i val),
            store := alSet st.store ref
                       (applyReplaceOne ((alGet st.store ref).getD [])
                         (putFilter mutable ref (some i) val) val),
            writes := st.writes
                        ++ [.replaceOne ref (putFilter mutable ref (some i) val) val] } := by
  rw [mongoPut, hk]
  simp only [idOk]
  rw [if_pos ⟨href, by simpa using hi⟩]
  have hinner : (alGet (alEnsure st.kv ref []) ref).getD [] = (alGet st.kv ref).getD [] := by
    rw [alGet_alEnsure_self]
    rfl
  cases hro : eng.readOnly with
  | true =>
    simp only [Bool.not_true, Bool.false_eq_true, if_false, if_true, hinner, Option.getD_some]
  | false =>
    simp only [Bool.not_false, if_true, Bool.false_eq_true, if_false, hinner, Option.getD_some]
    rfl

theorem mongoPut_eq_ro (eng : Eng) (mutable : Bool) (st : MState) {key ref i : String}
    (hk : keySplit key = (ref, some i)) (href : ref ≠ "") (hi : i ≠ "")
    (val : Doc) (hro : eng.readOnly = true) :
    (mongoPut eng mutable st key val).1
      = { st with
            kv := alSet (alEnsure st.kv ref []) ref
                    (alSet ((alGet st.kv ref).getD []) i val) } := by
  rw [mongoPut_eq eng mutable st hk href hi val, hro, if_pos rfl]

theorem mongoPut_eq_rw (eng : Eng) (mutable : Bool) (st : MState) {key ref i : String}
    (hk : keySplit key = (ref, some i)) (href : ref ≠ "") (hi : i ≠ "")
    (val : Doc) (hro : eng.readOnly = false) :
    (mongoPut eng mutable st key val).1
      = { kv := alSet (alEnsure st.kv ref []) ref
                  (alSet ((alGet st.kv ref).getD []) i val),
          store := alSet st.store ref
                     (applyReplaceOne ((alGet st.store ref).getD [])
                       (putFilter mutable ref (some i) val) val),
          writes := st.writes
                      ++ [.replaceOne ref (putFilter mutable ref (some i) val) val] } := by
  rw [mongoPut_eq eng mutable st hk href hi val, hro, if_neg Bool.false_ne_true]

theorem batchCollect_frame (vals : List BatchOp) (acc : List (String × List BatchOp))
    (st : MState) :
    (batchCollect vals acc st).2.store = st.store ∧
    (batchCollect vals acc st).2.writes = st.writes := by
  induction vals generalizing acc st with
  | nil => exact ⟨rfl, rfl⟩
  | cons v rest ih =>
    rw [batchCollect]
    split
    · exact ih _ _
    · exact ih _ _

theorem batchApplyColl_kv_eq (eng : Eng) (mutable : Bool) (st : MState)
    (coll : String) (cvals : List BatchOp) :
    (batchApplyColl eng mutable st coll cvals).kv
      = match cvals with
        | [] => st.kv
        | _ :: _ => alSet st.kv coll
            (batchAssemble mutable coll cvals [] ((alGet st.kv coll).getD [])).2 := by
  cases cvals with
  | nil => rfl
  | cons v rest =>
    rw [batchApplyColl]
    dsimp only
    split <;> rfl

theorem batchApplyColl_kv_indep (eng eng2 : Eng) (mutable : Bool)
    (st st2 : MState) (coll : String) (cvals : List BatchOp)
    (hkv : st.kv = st2.kv) :
    (batchApplyColl eng mutable st coll cvals).kv
      = (batchApplyColl eng2 mutable st2 coll cvals).kv := by
  rw [batchApplyColl_kv_eq, batchApplyColl_kv_eq, hkv]

theorem batchApplyColl_ro (eng : Eng) (hro : eng.readOnly = true) (mutable : Bool)
    (st : MState) (coll : String) (cvals : List BatchOp) :
    (batchApplyColl eng mutable st coll cvals).store = st.store ∧
    (batchApplyColl eng mutable st coll cvals).writes = st.writes := by
  cases cvals with
  | nil => exact ⟨rfl, rfl⟩
  | cons v rest =>
    rw [batchApplyColl]
    simp [hro]

theorem batchProcess_ro (eng eng2 : Eng) (hro : eng.readOnly = true) (mutable : Bool)
    (byColl : List (String × List BatchOp)) (st st2 : MState) (hkv : st.kv = st2.kv) :
    (batchProcess eng mutable byColl st).store = st.store ∧
    (batchProcess eng mutable byColl st).writes = st.writes ∧
    (batchProcess eng mutable byColl st).kv = (batchProcess eng2 mutable byColl st2).kv := by
  induction byColl generalizing st st2 with
  | nil => exact ⟨rfl, rfl, hkv⟩
  | cons e rest ih =>
    rw [batchProcess, batchProcess]
    obtain ⟨coll, cvals⟩ := e
    have h1 := batchApplyColl_ro eng hro mutable st coll cvals
    have h2 := batchApplyColl_kv_indep eng eng2 mutable st st2 coll cvals hkv
    have := ih (batchApplyColl eng mutable st coll cvals)
      (batchApplyColl eng2 mutable st2 coll cvals) h2
    exact ⟨this.1.trans h1.1, this.2.1.trans h1.2, this.2.2⟩

/-- C6: with `engine.readOnly = true` no call to `put`, `del` or `batch`
issues a durable write (the document store and the log of issued writes are
untouched), while the KV hot cache is updated exactly as the same call would
update it on a non-readOnly engine. -/
theorem C6_readOnly_no_durable_writes (newDb warmDb mutable : Bool) (st : MState)
    (pkey : String) (pval : Doc) (dkey : String) (vals : List BatchOp) :
    ((mongoPut { readOnly := true, newDb := newDb, warmDb := warmDb } mutable st pkey pval).1.store = st.store ∧
     (mongoPut { readOnly := true, newDb := newDb, warmDb := warmDb } mutable st pkey pval).1.writes = st.writes ∧
     (mongoPut { readOnly := true, newDb := newDb, warmDb := warmDb } mutable st pkey pval).1.kv
       = (mongoPut { readOnly := false, newDb := newDb, warmDb := warmDb } mutable st pkey pval).1.kv) ∧
    ((mongoDel { readOnly := true, newDb := newDb, warmDb := warmDb } st dkey).1.store = st.store ∧
     (mongoDel { readOnly := true, newDb := newDb, warmDb := warmDb } st dkey).1.writes = st.writes ∧
     (mongoDel { readOnly := true, newDb := newDb, warmDb := warmDb } st dkey).1.kv
       = (mongoDel { readOnly := false, newDb := newDb, warmDb := warmDb } st dkey).1.kv) ∧
    ((mongoBatch { readOnly := true, newDb := newDb, warmDb := warmDb } mutable st vals).1.store = st.store ∧
     (mongoBatch { readOnly := true, newDb := newDb, warmDb := warmDb } mutable st vals).1.writes = st.writes ∧
     (mongoBatch { readOnly := true, newDb := newDb, warmDb := warmDb } mutable st vals).1.kv
       = (mongoBatch { readOnly := false, newDb := newDb, warmDb := warmDb } mutable st vals).1.kv) := by
  refine ⟨⟨(mongoPut_ro _ rfl _ _ _ _).1, (mongoPut_ro _ rfl _ _ _ _).2,
           mongoPut_kv_indep _ _ _ _ _ _⟩,
          ⟨(mongoDel_ro _ rfl _ _).1, (mongoDel_ro _ rfl _ _).2,
           mongoDel_kv_indep _ _ _ _⟩, ?_⟩
  have hc := batchCollect_frame vals [] st
  have hp := batchProcess_ro { readOnly := true, newDb := newDb, warmDb := warmDb }
    { readOnly := false, newDb := newDb, warmDb := warmDb } rfl mutable
    (batchCollect vals [] st).1 (batchCollect vals [] st).2 (batchCollect vals [] st).2 rfl
  exact ⟨hp.1.trans hc.1, hp.2.1.trans hc.2, hp.2.2⟩

/-! ## Listener / dispatcher lemmas -/

theorem gapFillRecord_eq (chainId cur target : Nat) (q : List QEntry) (gen : Nat) :
    gapFillRecord cur target chainId q gen
      = (q ++ (List.range (target - cur)).map (fun j => ⟨chainId, cur + 1 + j, gen + j⟩),
         gen + (target - cur)) := by
  rw [gapFillRecord]
  split
  · next h =>
    rw [gapFillRecord_eq chainId (cur + 1) target _ _]
    rw [Prod.ext_iff]
    constructor
    · dsimp only [recordListenerBlock]
      rw [show target - cur = (target - (cur + 1)) + 1 by omega, List.range_succ_eq_map]
      simp only [List.map_cons, List.map_map, List.append_assoc, List.singleton_append,
        Nat.add_zero]
      congr 1
      refine List.cons_eq_cons.mpr ⟨by simp, ?_⟩
      refine List.map_congr_left ?_
      intro j hj
      simp only [Function.comp_apply, QEntry.mk.injEq, true_and]
      omega
    · dsimp only [recordListenerBlock]
      omega
  · next h =>
    have : target - cur = 0 := by omega
    simp [this]
termination_by target - cur
decreasing_by omega

/-- C1 (amended): when the queue head is more than one block ahead of the
latest processed number, `attemptNextBlock` synthesises `recordListenerBlock`
calls for every block from `latest + 1` up to AND INCLUDING the head's own
number, appends them (in ascending order, with fresh staging generations)
behind the remaining queue, and hands the original head — not `latest + 1` —
to processing first. -/
theorem C1_gap_fill_appends_head_processed_first
    (latest hnum cid g0 gen : Nat) (rest : List QEntry) (h : latest + 1 < hnum) :
    attemptNextBlock latest (⟨cid, hnum, g0⟩ :: rest) gen
      = some (⟨cid, hnum, g0⟩,
          rest ++ (List.range (hnum - latest)).map
            (fun j => ⟨cid, latest + 1 + j, gen + j⟩),
          gen + (hnum - latest)) := by
  rw [attemptNextBlock]
  have hcond : hnum - latest > 1 := by omega
  simp only [hcond, if_pos, gapFillRecord_eq]
  simp

/-- C1 counterexample: with `latestBlocks = 0` and a listener event queued for
block 5, the gap fill records blocks `1,2,3,4,5` — not `1..4` — and the entry
handed to processing is block `5`, not block `1`; the blocks are therefore not
handed over in ascending order `1..5`. -/
theorem C1_counterexample :
    attemptNextBlock 0 [⟨1, 5, 0⟩] 1
      = some (⟨1, 5, 0⟩, [⟨1, 1, 1⟩, ⟨1, 2, 2⟩, ⟨1, 3, 3⟩, ⟨1, 4, 4⟩, ⟨1, 5, 5⟩], 6) ∧
    ((gapFillRecord 0 5 1 [] 1).1.map QEntry.number = [1, 2, 3, 4, 5] ∧
      (gapFillRecord 0 5 1 [] 1).1.map QEntry.number ≠ [1, 2, 3, 4]) ∧
    (attemptNextBlock 0 [⟨1, 5, 0⟩] 1).map (fun r => r.1.number) ≠ some 1 := by
  simp only [attemptNextBlock, gapFillRecord_eq]
  decide

/-- Witness for C1 (amended) at `latest = 0`, head block 5: the head is handed
to processing and blocks 1..5 are synthesised behind the queue in order. -/
theorem C1_witness :
    attemptNextBlock 0 [⟨1, 5, 0⟩] 1
      = some (⟨1, 5, 0⟩, (List.range 5).map (fun j => ⟨1, 1 + j, 1 + j⟩), 6) := by
  have h := C1_gap_fill_appends_head_processed_first 0 5 1 0 1 [] (by omega)
  simpa using h

/-- C2: whenever `startProcessingBlock` observes `parts.cancelled === true` or
processing threw, the same `(chainId, number)` is re-inserted at index 0 of
the block queue with a freshly issued staging generation (one no existing
entry carries), the rest of the queue is untouched, and the generation
counter advances. -/
theorem C2_restack_on_cancel_or_throw (number cid gen : Nat) (q : List QEntry)
    (outcome : ProcOutcome) (hout : outcome = .completed true ∨ outcome = .threw)
    (hfresh : ∀ e ∈ q, e.partsGen < gen) :
    (startProcessingBlock number cid outcome q gen).1 = ⟨cid, number, gen⟩ :: q ∧
    (startProcessingBlock number cid outcome q gen).2 = gen + 1 ∧
    ∀ e ∈ q, e.partsGen ≠ gen := by
  rcases hout with rfl | rfl <;>
    exact ⟨rfl, rfl, fun e he => Nat.ne_of_lt (hfresh e he)⟩

/-- Witness for C2 at a concrete queue: a cancelled block 7 on chain 1 is
restacked at the head with the fresh generation 3. -/
theorem C2_witness :
    (startProcessingBlock 7 1 (.completed true) [⟨1, 8, 0⟩] 3).1
      = [⟨1, 7, 3⟩, ⟨1, 8, 0⟩] ∧
    (startProcessingBlock 7 1 (.completed true) [⟨1, 8, 0⟩] 3).2 = 4 := by
  have h := C2_restack_on_cancel_or_throw 7 1 3 [⟨1, 8, 0⟩] (.completed true)
    (Or.inl rfl) (by decide)
  exact ⟨h.1, h.2.1⟩

/-- C9: `processListenerBlockSafely` starts processing only when
`engine.startBlocks[chainId]` is present and non-zero, `number` is at least
that start block, and `number` is at least the latest processed number
(equality accepted); in every other case it leaves the queue and staging
state untouched regardless of what processing would have done. -/
theorem C9_skip_guard (startBlock : Option Nat) (latestNumber number cid gen : Nat)
    (q : List QEntry) (outcome : ProcOutcome) :
    (listenerBlockGuard startBlock latestNumber number = true
      ↔ ∃ s, startBlock = some s ∧ s ≠ 0 ∧ s ≤ number ∧ latestNumber ≤ number) ∧
    (listenerBlockGuard startBlock latestNumber number = false →
      processListenerBlockSafely startBlock latestNumber number cid outcome q gen
        = (q, gen)) ∧
    (∀ s, s ≠ 0 → s ≤ number →
      listenerBlockGuard (some s) number number = true) := by
  refine ⟨?_, ?_, ?_⟩
  · cases startBlock with
    | none => simp [listenerBlockGuard]
    | some s =>
      by_cases hs : s = 0
      · simp [listenerBlockGuard, hs]
      · simp [listenerBlockGuard, hs]
  · intro hg
    rw [processListenerBlockSafely, hg]
    simp
  · intro s hs hle
    simp [listenerBlockGuard, hs, hle]

/-- Witness for C9: a start block of 0 skips processing entirely, and block
`number = latest` passes the guard. -/
theorem C9_witness :
    processListenerBlockSafely (some 0) 3 9 1 .threw [⟨1, 9, 0⟩] 2 = ([⟨1, 9, 0⟩], 2) ∧
    listenerBlockGuard (some 3) 9 9 = true := by
  have h := C9_skip_guard (some 0) 3 9 1 2 [⟨1, 9, 0⟩] .threw
  exact ⟨h.2.1 rfl, (C9_skip_guard (some 3) 9 9 1 2 [] .threw).2.2 3 (by decide) (by decide)⟩

/-- C8: with `flags.cleanup` set, staging a block writes only the combined
`blockAndReceipts/<chainId>-<number>.json` artefact; with the flag unset every
transaction's `transactions/` artefact and the per-block `blocks/` artefact
are written as well, and no other artefact class is touched. -/
theorem C8_cleanup_writes_only_combined (cid n : Nat) (txs : List String) :
    awaitListenerWrites true cid n txs = [⟨"blockAndReceipts", artifactName cid n⟩] ∧
    (∀ h ∈ txs, (⟨"transactions", txArtifactName cid h⟩ : StagingWrite)
        ∈ awaitListenerWrites false cid n txs) ∧
    (⟨"blocks", artifactName cid n⟩ : StagingWrite) ∈ awaitListenerWrites false cid n txs ∧
    (⟨"blockAndReceipts", artifactName cid n⟩ : StagingWrite)
        ∈ awaitListenerWrites false cid n txs ∧
    (∀ w ∈ awaitListenerWrites false cid n txs,
      w.folder = "transactions" ∨ w.folder = "blocks" ∨ w.folder = "blockAndReceipts") := by
  have hfalse : awaitListenerWrites false cid n txs
      = txs.map (fun h2 => ⟨"transactions", txArtifactName cid h2⟩)
          ++ [⟨"blocks", artifactName cid n⟩, ⟨"blockAndReceipts", artifactName cid n⟩] := by
    rw [awaitListenerWrites]
    simp only [getReceiptWrites, Bool.false_eq_true, if_false]
    rw [List.append_assoc, List.singleton_append]
    congr 1
    induction txs with
    | nil => rfl
    | cons t ts ih => simpa using ih
  refine ⟨?_, ?_, ?_, ?_, ?_⟩
  · simp [awaitListenerWrites, getReceiptWrites]
  · intro h hh
    rw [hfalse]
    exact List.mem_append_left _ (List.mem_map_of_mem _ hh)
  · rw [hfalse]
    exact List.mem_append_right _ (by simp)
  · rw [hfalse]
    exact List.mem_append_right _ (by simp)
  · intro w hw
    rw [hfalse, List.mem_append] at hw
    rcases hw with hw | hw
    · rw [List.mem_map] at hw
      obtain ⟨a, _, rfl⟩ := hw
      exact Or.inl rfl
    · simp only [List.mem_cons, List.mem_singleton, List.not_mem_nil, or_false] at hw
      rcases hw with rfl | rfl
      · exact Or.inr (Or.inl rfl)
      · exact Or.inr (Or.inr rfl)

/-- Witness for C8 with one transaction: the cleanup run writes only the
combined artefact and the non-cleanup run writes all three. -/
theorem C8_witness :
    awaitListenerWrites true 1 9 ["0xab"] = [⟨"blockAndReceipts", "1-9"⟩] ∧
    (⟨"transactions", "1-0xab"⟩ : StagingWrite) ∈ awaitListenerWrites false 1 9 ["0xab"] := by
  have h := C8_cleanup_writes_only_combined 1 9 ["0xab"]
  exact ⟨h.1, h.2.1 "0xab" (by decide)⟩

/-- C3 counterexample: on an immutable collection `c` holding two versions of
id `z`, `batch([put c.a, put c.b, del c.z])` and the sequential
`put c.a; put c.b; del c.z` leave different durable documents: the batch's
`deleteMany({id:"z"})` removes both versions of `z`, while the single-op `del`
issues a `deleteOne` that removes the collection's first document, so exactly
one `z` version survives sequentially and none survives the batch. -/
theorem C3_counterexample :
    (mongoBatch {} false { store := [("c", [{ id := some "z", block_ts := some 1 },
                                            { id := some "z", block_ts := some 2 }])] }
        [⟨"put", "c.a", some { id := some "a", block_ts := some 1 }⟩,
         ⟨"put", "c.b", some { id := some "b", block_ts := some 1 }⟩,
         ⟨"del", "c.z", none⟩]).1.store
      ≠ (mongoDel {}
          (mongoPut {} false
            (mongoPut {} false
              { store := [("c", [{ id := some "z", block_ts := some 1 },
                                 { id := some "z", block_ts := some 2 }])] }
              "c.a" { id := some "a", block_ts := some 1 }).1
            "c.b" { id := some "b", block_ts := some 1 }).1
          "c.z").1.store := by
  decide

/-- C3 (amended): for every collection mode, a batch of two puts on
well-formed `ref.id` keys whose values carry no reserved `_id` field leaves
the durable documents and the KV hot cache in exactly the state of the two
single-op puts run sequentially.  (The `del` leg of the original claim fails:
see the counterexample — batch `del` is a `deleteMany` on the id while the
single-op `del` deletes one document.) -/
theorem C3_batch_two_puts_equals_sequential (eng : Eng) (mutable : Bool) (st : MState)
    {ka refA iA kb refB iB : String}
    (hka : keySplit ka = (refA, some iA)) (hrefA : refA ≠ "") (hiA : iA ≠ "")
    (hkb : keySplit kb = (refB, some iB)) (hrefB : refB ≠ "") (hiB : iB ≠ "")
    (va vb : Doc) (hva : va.mongo_id = none) (hvb : vb.mongo_id = none) :
    (mongoBatch eng mutable st [⟨"put", ka, some va⟩, ⟨"put", kb, some vb⟩]).1.store
      = (mongoPut eng mutable (mongoPut eng mutable st ka va).1 kb vb).1.store ∧
    (mongoBatch eng mutable st [⟨"put", ka, some va⟩, ⟨"put", kb, some vb⟩]).1.kv
      = (mongoPut eng mutable (mongoPut eng mutable st ka va).1 kb vb).1.kv := by
  by_cases hAB : refB = refA
  · subst hAB
    have h1 : batchCollect [⟨"put", ka, some va⟩, ⟨"put", kb, some vb⟩] [] st
        = ([(refB, [⟨"put", ka, some va⟩, ⟨"put", kb, some vb⟩])],
           { st with kv := alEnsure st.kv refB [] }) := by
      simp only [batchCollect, hka, hkb, survives, Option.isSome_some, Bool.or_true,
        if_pos, alEnsure, alGet, alSet, Option.getD_none, List.nil_append,
        List.cons_append, if_true]
      rw [alGet_alSet_self]
      simp [alSet_alSet_same]
    have hL : (mongoBatch eng mutable st [⟨"put", ka, some va⟩, ⟨"put", kb, some vb⟩]).1
        = batchApplyColl eng mutable { st with kv := alEnsure st.kv refB [] } refB
            [⟨"put", ka, some va⟩, ⟨"put", kb, some vb⟩] := by
      rw [mongoBatch, h1]
      rfl
    have hasm : batchAssemble mutable refB [⟨"put", ka, some va⟩, ⟨"put", kb, some vb⟩]
        [] ((alGet st.kv refB).getD [])
        = ([.repl (putFilter mutable refB (some iA) va) va,
            .repl (putFilter mutable refB (some iB) vb) vb],
           alSet (alSet ((alGet st.kv refB).getD []) iA va) iB vb) := by
      simp only [batchAssemble, hka, hkb]
      simp [doc_set_mongo_id_none hva, doc_set_mongo_id_none hvb]
    rw [hL, batchApplyColl]
    simp only [alGet_alEnsure_self, Option.getD_some, hasm]
    cases hro : eng.readOnly with
    | true =>
      simp only [hro, Bool.not_true, Bool.false_and, Bool.false_eq_true, if_false]
      rw [mongoPut_eq_ro eng mutable st hka hrefA hiA va hro,
        mongoPut_eq_ro eng mutable _ hkb hrefB hiB vb hro]
      constructor
      · rfl
      · show alSet (alEnsure st.kv refB []) refB _ = _
        rw [alGet_alSet_self, Option.getD_some,
          alEnsure_of_some _ _ _ _ (alGet_alSet_self _ _ _), alSet_alSet_same]
    | false =>
      simp only [hro, Bool.not_false, Bool.true_and, List.isEmpty_cons, Bool.not_false,
        if_true, Bool.false_eq_true]
      rw [mongoPut_eq_rw eng mutable st hka hrefA hiA va hro,
        mongoPut_eq_rw eng mutable _ hkb hrefB hiB vb hro]
      dsimp only
      simp only [List.foldl_cons, List.foldl_nil, applyBulkOp, collOf]
      constructor
      · show alSet st.store refB _ = _
        rw [alGet_alSet_self, Option.getD_some, alSet_alSet_same]
      · show alSet (alEnsure st.kv refB []) refB _ = _
        rw [alGet_alSet_self, Option.getD_some,
          alEnsure_of_some _ _ _ _ (alGet_alSet_self _ _ _), alSet_alSet_same]
  · have hARne : refA ≠ refB := fun h => hAB h.symm
    have h1 : batchCollect [⟨"put", ka, some va⟩, ⟨"put", kb, some vb⟩] [] st
        = ([(refA, [⟨"put", ka, some va⟩]), (refB, [⟨"put", kb, some vb⟩])],
           { st with kv := alEnsure (alEnsure st.kv refA []) refB [] }) := by
      simp only [batchCollect, hka, hkb, survives, Option.isSome_some, Bool.or_true,
        if_pos, alGet, alSet, Option.getD_none, List.nil_append,
        List.cons_append, if_true, hARne]
      simp [alEnsure, alGet, alSet, hARne]
    have hgetA : (alGet (alEnsure (alEnsure st.kv refA []) refB []) refA).getD []
        = (alGet st.kv refA).getD [] := by
      rw [alGet_alEnsure_ne _ _ _ _ hAB, alGet_alEnsure_self, Option.getD_some]
    have hasmA : batchAssemble mutable refA [⟨"put", ka, some va⟩] []
        ((alGet st.kv refA).getD [])
        = ([.repl (putFilter mutable refA (some iA) va) va],
           alSet ((alGet st.kv refA).getD []) iA va) := by
      simp only [batchAssemble, hka]
      simp [doc_set_mongo_id_none hva]
    have hasmB : ∀ kvc : List (String × Doc),
        batchAssemble mutable refB [⟨"put", kb, some vb⟩] [] kvc
        = ([.repl (putFilter mutable refB (some iB) vb) vb], alSet kvc iB vb) := by
      intro kvc
      simp only [batchAssemble, hkb]
      simp [doc_set_mongo_id_none hvb]
    have hL : (mongoBatch eng mutable st [⟨"put", ka, some va⟩, ⟨"put", kb, some vb⟩]).1
        = batchApplyColl eng mutable
            (batchApplyColl eng mutable
              { st with kv := alEnsure (alEnsure st.kv refA []) refB [] }
              refA [⟨"put", ka, some va⟩])
            refB [⟨"put", kb, some vb⟩] := by
      rw [mongoBatch, h1]
      rfl
    have hSome : (alGet (alEnsure st.kv refA []) refA).isSome := by
      rw [alGet_alEnsure_self]
      rfl
    cases hro : eng.readOnly with
    | true =>
      have hiApply : batchApplyColl eng mutable
          { st with kv := alEnsure (alEnsure st.kv refA []) refB [] }
          refA [⟨"put", ka, some va⟩]
          = { st with
                kv := alSet (alEnsure (alEnsure st.kv refA []) refB []) refA
                        (alSet ((alGet st.kv refA).getD []) iA va) } := by
        rw [batchApplyColl]
        dsimp only
        rw [hgetA, hasmA]
        simp only [hro, Bool.not_true, Bool.false_and, Bool.false_eq_true, if_false]
      have hgetB : (alGet (alSet (alEnsure (alEnsure st.kv refA []) refB []) refA
          (alSet ((alGet st.kv refA).getD []) iA va)) refB).getD []
          = (alGet st.kv refB).getD [] := by
        rw [alGet_alSet_ne _ _ _ _ hARne, alGet_alEnsure_self, Option.getD_some,
          alGet_alEnsure_ne _ _ _ _ hARne]
      rw [hL, hiApply, batchApplyColl]
      dsimp only
      rw [hgetB, hasmB]
      simp only [hro, Bool.not_true, Bool.false_and, Bool.false_eq_true, if_false]
      rw [mongoPut_eq_ro eng mutable st hka hrefA hiA va hro,
        mongoPut_eq_ro eng mutable _ hkb hrefB hiB vb hro]
      dsimp only
      refine ⟨rfl, ?_⟩
      have hK1B : alGet (alSet (alEnsure st.kv refA []) refA
          (alSet ((alGet st.kv refA).getD []) iA va)) refB = alGet st.kv refB := by
        rw [alGet_alSet_ne _ _ _ _ hARne, alGet_alEnsure_ne _ _ _ _ hARne]
      conv_rhs => rw [alEnsure, hK1B]
      rw [alSet_alSet_same]
      exact alSet_alSet_alEnsure_comm (alEnsure st.kv refA []) refA refB _ _ [] hAB hSome
    | false =>
      have hiApply : batchApplyColl eng mutable
          { st with kv := alEnsure (alEnsure st.kv refA []) refB [] }
          refA [⟨"put", ka, some va⟩]
          = { kv := alSet (alEnsure (alEnsure st.kv refA []) refB []) refA
                (alSet ((alGet st.kv refA).getD []) iA va),
              store := alSet st.store refA
                (applyReplaceOne ((alGet st.store refA).getD [])
                  (putFilter mutable refA (some iA) va) va),
              writes := st.writes ++ [.bulkWrite refA
                [.repl (putFilter mutable refA (some iA) va) va]] } := by
        rw [batchApplyColl]
        dsimp only
        rw [hgetA, hasmA]
        simp only [hro, Bool.not_false, Bool.true_and, List.isEmpty_cons,
          Bool.false_eq_true, if_true, List.foldl_cons, List.foldl_nil, applyBulkOp, collOf]
      have hgetB : (alGet (alSet (alEnsure (alEnsure st.kv refA []) refB []) refA
          (alSet ((alGet st.kv refA).getD []) iA va)) refB).getD []
          = (alGet st.kv refB).getD [] := by
        rw [alGet_alSet_ne _ _ _ _ hARne, alGet_alEnsure_self, Option.getD_some,
          alGet_alEnsure_ne _ _ _ _ hARne]
      rw [hL, hiApply, batchApplyColl]
      dsimp only
      rw [hgetB, hasmB]
      simp only [hro, Bool.not_false, Bool.true_and, List.isEmpty_cons,
        Bool.false_eq_true, if_true, List.foldl_cons, List.foldl_nil, applyBulkOp, collOf]
      rw [mongoPut_eq_rw eng mutable st hka hrefA hiA va hro,
        mongoPut_eq_rw eng mutable _ hkb hrefB hiB vb hro]
      dsimp only
      constructor
      · rw [alGet_alSet_ne _ _ _ _ hARne]
      · have hK1B : alGet (alSet (alEnsure st.kv refA []) refA
            (alSet ((alGet st.kv refA).getD []) iA va)) refB = alGet st.kv refB := by
          rw [alGet_alSet_ne _ _ _ _ hARne, alGet_alEnsure_ne _ _ _ _ hARne]
        conv_rhs => rw [alEnsure, hK1B]
        rw [alSet_alSet_same]
        exact alSet_alSet_alEnsure_comm (alEnsure st.kv refA []) refA refB _ _ [] hAB hSome

/-! ## Lemmas for the falsy-put analysis of `Mongo.batch` -/

theorem alGet_skip {α : Type} (xs ys : List (String × α)) (r k : String) (e : α)
    (h : k ≠ r) : alGet (xs ++ (r, e) :: ys) k = alGet (xs ++ ys) k := by
  induction xs with
  | nil => simp [alGet, Ne.symm h]
  | cons p rest ih =>
    obtain ⟨pk, pv⟩ := p
    by_cases hp : pk = k <;> simp [alGet, hp, ih]

theorem alSet_skip {α : Type} (xs ys : List (String × α)) (r k : String) (e v : α)
    (h : k ≠ r) :
    ∃ xs2 ys2, alSet (xs ++ (r, e) :: ys) k v = xs2 ++ (r, e) :: ys2 ∧
      alSet (xs ++ ys) k v = xs2 ++ ys2 ∧
      (∀ k2, k2 ≠ k → alGet (xs2 ++ ys2) k2 = alGet (xs ++ ys) k2) := by
  induction xs with
  | nil =>
    refine ⟨[], alSet ys k v, ?_, rfl, ?_⟩
    · simp [alSet, Ne.symm h]
    · intro k2 hk2
      simp only [List.nil_append]
      exact alGet_alSet_ne ys k k2 v (fun hh => hk2 hh.symm)
  | cons p rest ih =>
    obtain ⟨pk, pv⟩ := p
    by_cases hp : pk = k
    · refine ⟨(k, v) :: rest, ys, by simp [alSet, hp], by simp [alSet, hp], ?_⟩
      intro k2 hk2
      simp [alGet, hp, Ne.symm hk2, fun hh : k2 = pk => hk2 (hh.trans hp)]
    · obtain ⟨xs2, ys2, h1, h2, h3⟩ := ih
      refine ⟨(pk, pv) :: xs2, ys2, by simp [alSet, hp, h1], by simp [alSet, hp, h2], ?_⟩
      intro k2 hk2
      by_cases hp2 : pk = k2 <;> simp [alGet, hp2, h3 k2 hk2]

theorem alEnsure_skip {α : Type} (xs ys : List (String × α)) (r k : String) (e d : α)
    (h : k ≠ r) :
    ∃ xs2 ys2, alEnsure (xs ++ (r, e) :: ys) k d = xs2 ++ (r, e) :: ys2 ∧
      alEnsure (xs ++ ys) k d = xs2 ++ ys2 ∧
      (∀ k2, k2 ≠ k → alGet (xs2 ++ ys2) k2 = alGet (xs ++ ys) k2) := by
  rw [alEnsure, alEnsure, alGet_skip xs ys r k e h]
  exact alSet_skip xs ys r k e _ h

theorem alGet_isSome_alSet {α : Type} (l : List (String × α)) (k k2 : String) (v : α)
    (h : (alGet l k).isSome) : (alGet (alSet l k2 v) k).isSome := by
  by_cases hk : k2 = k
  · subst hk
    rw [alGet_alSet_self]
    rfl
  · rw [alGet_alSet_ne _ _ _ _ hk]
    exact h

theorem mem_alSet {α : Type} {l : List (String × α)} {k : String} {v : α}
    {p : String × α} (h : p ∈ alSet l k v) : p = (k, v) ∨ p ∈ l := by
  induction l with
  | nil => simpa [alSet] using h
  | cons q rest ih =>
    obtain ⟨qk, qv⟩ := q
    by_cases hq : qk = k
    · simp only [alSet, if_pos hq] at h
      rcases List.mem_cons.mp h with rfl | hin
      · exact Or.inl rfl
      · exact Or.inr (List.mem_cons_of_mem _ hin)
    · simp only [alSet, if_neg hq] at h
      rcases List.mem_cons.mp h with rfl | hin
      · exact Or.inr (List.mem_cons_self _ _)
      · rcases ih hin with h2 | h2
        · exact Or.inl h2
        · exact Or.inr (List.mem_cons_of_mem _ h2)

theorem batchCollect_append (xs ys : List BatchOp) (acc : List (String × List BatchOp))
    (st : MState) :
    batchCollect (xs ++ ys) acc st
      = batchCollect ys (batchCollect xs acc st).1 (batchCollect xs acc st).2 := by
  induction xs generalizing acc st with
  | nil => rfl
  | cons v rest ih =>
    rw [List.cons_append, batchCollect, batchCollect]
    split
    · exact ih _ _
    · exact ih _ _

theorem batchCollect_isSome (vals : List BatchOp) (acc : List (String × List BatchOp))
    (st : MState) (k : String)
    (h : k ∈ vals.map (fun v => (keySplit v.key).1) ∨ (alGet acc k).isSome) :
    (alGet (batchCollect vals acc st).1 k).isSome := by
  induction vals generalizing acc st with
  | nil =>
    rcases h with h | h
    · simp at h
    · exact h
  | cons v rest ih =>
    rw [batchCollect]
    have hens : k = (keySplit v.key).1 ∨ (alGet acc k).isSome →
        (alGet (alEnsure acc (keySplit v.key).1 []) k).isSome := by
      intro hh
      rcases hh with rfl | hh
      · rw [alGet_alEnsure_self]
        rfl
      · exact alGet_isSome_alSet _ _ _ _ hh
    rcases h with h | h
    · simp only [List.map_cons, List.mem_cons] at h
      rcases h with h | h
      · split
        · exact ih _ _ (Or.inr (alGet_isSome_alSet _ _ _ _ (hens (Or.inl h))))
        · exact ih _ _ (Or.inr (hens (Or.inl h)))
      · split
        · exact ih _ _ (Or.inl h)
        · exact ih _ _ (Or.inl h)
    · split
      · exact ih _ _ (Or.inr (alGet_isSome_alSet _ _ _ _ (hens (Or.inr h))))
      · exact ih _ _ (Or.inr (hens (Or.inr h)))

theorem batchCollect_none (vals : List BatchOp) (acc : List (String × List BatchOp))
    (st : MState) (k : String) (hacc : alGet acc k = none)
    (h : k ∉ vals.map (fun v => (keySplit v.key).1)) :
    alGet (batchCollect vals acc st).1 k = none := by
  induction vals generalizing acc st with
  | nil => exact hacc
  | cons v rest ih =>
    simp only [List.map_cons, List.mem_cons, not_or] at h
    have hne : (keySplit v.key).1 ≠ k := fun hh => h.1 hh.symm
    have hens : alGet (alEnsure acc (keySplit v.key).1 []) k = none := by
      rw [alGet_alEnsure_ne _ _ _ _ hne]
      exact hacc
    rw [batchCollect]
    split
    · exact ih _ _ (by rw [alGet_alSet_ne _ _ _ _ hne]; exact hens) h.2
    · exact ih _ _ hens h.2

theorem batchCollect_skip (post : List BatchOp) (r : String) :
    ∀ (xs ys : List (String × List BatchOp)) (st : MState),
    r ∉ post.map (fun v => (keySplit v.key).1) →
    ∃ xs2 ys2,
      batchCollect post (xs ++ (r, []) :: ys) st
        = (xs2 ++ (r, []) :: ys2, (batchCollect post (xs ++ ys) st).2) ∧
      (batchCollect post (xs ++ ys) st).1 = xs2 ++ ys2 := by
  induction post with
  | nil =>
    intro xs ys st _
    exact ⟨xs, ys, rfl, rfl⟩
  | cons v rest ih =>
    intro xs ys st hr
    simp only [List.map_cons, List.mem_cons, not_or] at hr
    have hne : (keySplit v.key).1 ≠ r := fun hh => hr.1 hh.symm
    obtain ⟨exs, eys, he1, he2, he3⟩ :=
      alEnsure_skip xs ys r (keySplit v.key).1 [] [] hne
    rw [batchCollect, batchCollect, he1, he2]
    split
    · have hget : alGet (exs ++ (r, []) :: eys) (keySplit v.key).1
          = alGet (exs ++ eys) (keySplit v.key).1 :=
        alGet_skip exs eys r _ [] hne
      obtain ⟨sxs, sys, hs1, hs2, _⟩ :=
        alSet_skip exs eys r (keySplit v.key).1 []
          (((alGet (exs ++ eys) (keySplit v.key).1).getD []) ++ [v]) hne
      rw [hget, hs1, hs2]
      exact ih sxs sys _ hr.2
    · exact ih exs eys st hr.2

theorem batchProcess_skip (eng : Eng) (mutable : Bool) (r : String)
    (xs ys : List (String × List BatchOp)) (st : MState) :
    batchProcess eng mutable (xs ++ (r, []) :: ys) st
      = batchProcess eng mutable (xs ++ ys) st := by
  induction xs generalizing st with
  | nil => rfl
  | cons e rest ih =>
    obtain ⟨coll, cvals⟩ := e
    rw [List.cons_append, batchProcess, List.cons_append, batchProcess]
    exact ih _

theorem batchProcess_all_empty (eng : Eng) (mutable : Bool)
    (byColl : List (String × List BatchOp)) (st : MState)
    (h : ∀ p ∈ byColl, p.2 = ([] : List BatchOp)) :
    batchProcess eng mutable byColl st = st := by
  induction byColl generalizing st with
  | nil => rfl
  | cons e rest ih =>
    obtain ⟨coll, cvals⟩ := e
    have he : cvals = [] := h (coll, cvals) (List.mem_cons_self _ _)
    subst he
    rw [batchProcess]
    exact ih _ (fun p hp => h p (List.mem_cons_of_mem _ hp))

theorem batchCollect_dropped (ks : List String) (acc : List (String × List BatchOp))
    (st : MState) (hacc : ∀ p ∈ acc, p.2 = ([] : List BatchOp)) :
    (batchCollect (ks.map (fun k2 => ⟨"put", k2, none⟩)) acc st).2 = st ∧
    ∀ p ∈ (batchCollect (ks.map (fun k2 => ⟨"put", k2, none⟩)) acc st).1,
      p.2 = ([] : List BatchOp) := by
  induction ks generalizing acc st with
  | nil => exact ⟨rfl, hacc⟩
  | cons k2 rest ih =>
    rw [List.map_cons, batchCollect]
    have hsurv : survives ⟨"put", k2, none⟩ = false := rfl
    rw [if_neg (by rw [hsurv]; exact Bool.false_ne_true)]
    refine ih _ _ ?_
    intro p hp
    rcases mem_alSet hp with rfl | hp2
    · have : (alGet acc (keySplit k2).1).getD [] = [] := by
        cases hg : alGet acc (keySplit k2).1 with
        | none => rfl
        | some w =>
          have : ((keySplit k2).1, w) ∈ acc := by
            clear hacc hp
            induction acc with
            | nil => simp [alGet] at hg
            | cons q qrest ihq =>
              obtain ⟨qk, qv⟩ := q
              by_cases hqk : qk = (keySplit k2).1
              · simp only [alGet, if_pos hqk] at hg
                subst hqk
                obtain rfl : qv = w := by injection hg
                exact List.mem_cons_self _ _
              · simp only [alGet, if_neg hqk] at hg
                exact List.mem_cons_of_mem _ (ihq hg)
          have hw : w = [] := hacc _ this
          rw [hw]
          rfl
      simpa using this
    · exact hacc p hp2

/-- C10: `Mongo.batch` silently drops every `put` whose value is absent:
a batch consisting only of such puts changes nothing (no bulk write is issued
for any collection, the hot cache is untouched) yet still resolves `true`;
and removing a value-less put from any batch leaves the batch's entire effect
unchanged, provided the dropped op's collection either already appears among
the earlier ops or does not reappear among the later ops (otherwise only the
bookkeeping ORDER of per-collection groups shifts). -/
theorem C10_batch_drops_falsy_puts (eng : Eng) (mutable : Bool) (st : MState)
    (ks : List String) (pre post : List BatchOp) (k : String)
    (hcase : (keySplit k).1 ∈ pre.map (fun v => (keySplit v.key).1)
             ∨ (keySplit k).1 ∉ post.map (fun v => (keySplit v.key).1)) :
    mongoBatch eng mutable st (ks.map (fun k2 => ⟨"put", k2, none⟩)) = (st, true) ∧
    mongoBatch eng mutable st (pre ++ ⟨"put", k, none⟩ :: post)
      = mongoBatch eng mutable st (pre ++ post) := by
  constructor
  · have hd := batchCollect_dropped ks [] st (by simp)
    rw [mongoBatch]
    rw [batchProcess_all_empty eng mutable _ _ hd.2, hd.1]
  · rw [mongoBatch, mongoBatch, batchCollect_append, batchCollect_append, batchCollect]
    have hsurv : survives ⟨"put", k, none⟩ = false := rfl
    rw [if_neg (by rw [hsurv]; exact Bool.false_ne_true)]
    by_cases hsome : (alGet (batchCollect pre [] st).1 (keySplit k).1).isSome
    · obtain ⟨w, hw⟩ := Option.isSome_iff_exists.mp hsome
      rw [alEnsure_of_some _ _ _ _ hw]
    · rcases hcase with hpre | hpost
      · exact absurd (batchCollect_isSome pre [] st _ (Or.inl hpre)) hsome
      · have hnone : alGet (batchCollect pre [] st).1 (keySplit k).1 = none :=
          Option.not_isSome_iff_eq_none.mp hsome
        rw [alEnsure_of_none _ _ _ hnone]
        obtain ⟨xs2, ys2, hc1, hc2⟩ :=
          batchCollect_skip post (keySplit k).1 (batchCollect pre [] st).1 []
            (batchCollect pre [] st).2 hpost
        rw [List.append_nil] at hc1 hc2
        rw [hc1, hc2]
        dsimp only
        rw [batchProcess_skip]

/-- Witness for C10: a batch holding only a value-less put is a no-op that
resolves `true`, and dropping a value-less put from a two-op batch leaves the
state unchanged. -/
theorem C10_witness :
    mongoBatch {} false {} [⟨"put", "c.x", none⟩] = ({}, true) ∧
    mongoBatch {} false {} [⟨"put", "c.a", some { id := some "a" }⟩, ⟨"put", "c.x", none⟩]
      = mongoBatch {} false {} [⟨"put", "c.a", some { id := some "a" }⟩] := by
  have h := C10_batch_drops_falsy_puts {} false {} ["c.x"]
    [⟨"put", "c.a", some { id := some "a" }⟩] [] "c.x" (Or.inr (by decide))
  exact ⟨h.1, by simpa using h.2⟩

/-- Witness for C3 (amended): two puts on distinct ids of collection `c`,
batched and sequential, coincide on documents and cache. -/
theorem C3_witness :
    (mongoBatch {} false {} [⟨"put", "c.a", some { id := some "a" }⟩,
                             ⟨"put", "c.b", some { id := some "b" }⟩]).1.store
      = (mongoPut {} false (mongoPut {} false {} "c.a" { id := some "a" }).1
          "c.b" { id := some "b" }).1.store ∧
    (mongoBatch {} false {} [⟨"put", "c.a", some { id := some "a" }⟩,
                             ⟨"put", "c.b", some { id := some "b" }⟩]).1.kv
      = (mongoPut {} false (mongoPut {} false {} "c.a" { id := some "a" }).1
          "c.b" { id := some "b" }).1.kv :=
  C3_batch_two_puts_equals_sequential {} false {}
    (show keySplit "c.a" = ("c", some "a") by decide) (by decide) (by decide)
    (show keySplit "c.b" = ("c", some "b") by decide) (by decide) (by decide)
    { id := some "a" } { id := some "b" } rfl rfl

end Supagraph
